import Mathlib

/-!
Verification of the wink-code agent core against its specification.

Strings are modelled as `List Char` (Go strings are byte slices; every
operation used here - splitting on the path separator, prefix tests,
concatenation, substring search - acts the same on a character list).
Paths use the Unix separator, matching Go `path/filepath` on Linux.
-/

set_option maxHeartbeats 1000000
set_option maxRecDepth 100000

/-- Go string, modelled as a list of characters. -/
abbrev Str := List Char

/-- Convert a Lean string literal to the model type. -/
def str (s : String) : Str := s.data

/-- The single-quote character (used by Go error messages built with %s). -/
def squote : Char := Char.ofNat 39

/-- strings.HasPrefix from the Go standard library. -/
def goStartsWith (s pre : Str) : Bool := pre.isPrefixOf s

/-- strings.Contains from the Go standard library. -/
def strContains : Str → Str → Bool
  | s, sub =>
    sub.isPrefixOf s ||
      match s with
      | [] => false
      | _ :: rest => strContains rest sub

/-- Split a path on the separator character, as Go does between separators:
splitSep of "/a/b" is ["", "a", "b"]. -/
def splitSep : Str → List Str
  | [] => [[]]
  | c :: rest =>
    if c = '/' then [] :: splitSep rest
    else (c :: (splitSep rest).headI) :: (splitSep rest).tail

/-- filepath.IsAbs on Unix: the path begins with the separator. -/
def isAbs (p : Str) : Bool := goStartsWith p (str "/")

/-- The element loop of filepath.Clean (Lexical analysis of path elements):
drop empty and "." elements; ".." pops the previous element when one is
available, is dropped at the root of a rooted path, and is kept at the
front of a relative path. `acc` is the output buffer. -/
def cleanComps (rooted : Bool) : List Str → List Str → List Str
  | acc, [] => acc
  | acc, c :: rest =>
    if c = [] ∨ c = ['.'] then cleanComps rooted acc rest
    else if c = ['.', '.'] then
      if acc ≠ [] ∧ acc.getLast? ≠ some ['.', '.'] then
        cleanComps rooted acc.dropLast rest
      else if rooted then cleanComps rooted acc rest
      else cleanComps rooted (acc ++ [c]) rest
    else cleanComps rooted (acc ++ [c]) rest

/-- Join components with the separator character. -/
def joinSep : List Str → Str
  | [] => []
  | [a] => a
  | a :: rest => a ++ '/' :: joinSep rest

/-- Render an absolute path from its cleaned components. -/
def renderAbs (cs : List Str) : Str := '/' :: joinSep cs

/-- Render a relative path from its cleaned components; an empty list
renders as "." exactly as filepath.Clean does. -/
def renderRel (cs : List Str) : Str :=
  if cs = [] then str "." else joinSep cs

/-- filepath.Clean on Unix. -/
def clean (p : Str) : Str :=
  if isAbs p then renderAbs (cleanComps true [] (splitSep p))
  else renderRel (cleanComps false [] (splitSep p))

/-- filepath.Join of two elements: empty elements are skipped and the
result is Cleaned. -/
def joinPath (a b : Str) : Str :=
  if a = [] then (if b = [] then [] else clean b)
  else if b = [] then clean a
  else clean (a ++ '/' :: b)

/-- filepath.Abs: an absolute path is Cleaned, a relative path is joined
with the process working directory `cwd` (Join also Cleans). -/
def absPath (cwd p : Str) : Str :=
  if isAbs p then clean p else joinPath cwd p

/-- The component walk of filepath.Rel after both inputs are Cleaned:
strip the common prefix; if the first remaining base component is ".."
the target cannot be made relative (error, `none`); otherwise emit one
".." per remaining base component followed by the remaining target
components. -/
def relComps : List Str → List Str → Option (List Str)
  | [], t => some t
  | b :: bs, [] =>
    if b = ['.', '.'] then none
    else some (List.replicate (b :: bs).length (str ".."))
  | b :: bs, t :: ts =>
    if b = t then relComps bs ts
    else if b = ['.', '.'] then none
    else some (List.replicate (b :: bs).length (str "..") ++ t :: ts)

/-- filepath.Rel: errors (`none`) when exactly one side is rooted;
otherwise works on the Cleaned components and renders the relative
result ("." when the paths are equal). -/
def goRel (base targ : Str) : Option Str :=
  if isAbs base ≠ isAbs targ then none
  else
    match relComps (cleanComps (isAbs base) [] (splitSep base))
        (cleanComps (isAbs targ) [] (splitSep targ)) with
    | none => none
    | some cs => some (renderRel cs)

/-- The error message of security.go line 30 (the filepath.Rel failure
branch): path {p} is outside working directory. -/
def outsideErrShort (p : Str) : Str :=
  str "path " ++ [squote] ++ p ++ [squote] ++ str " is outside working directory"

/-- The error message of security.go lines 35-36: path {p} is outside
working directory (resolved to {abs}). Note that it embeds the resolved
absolute path. -/
def outsideErrResolved (p abs : Str) : Str :=
  outsideErrShort p ++ str " (resolved to " ++ [squote] ++ abs ++ [squote] ++ str ")"

/-- ValidatePath from internal/tools/security.go: resolve both arguments
to absolute cleaned form (filepath.Abs uses the process working directory
`cwd` for relative arguments), Clean again, compute the relative path
from the working directory and reject when it begins with ".." or with
the separator. Returns the error message, or `none` on success. -/
def validatePath (cwd workingDir requestedPath : Str) : Option Str :=
  match goRel (clean (absPath cwd workingDir)) (clean (absPath cwd requestedPath)) with
  | none => some (outsideErrShort requestedPath)
  | some relPath =>
    if goStartsWith relPath (str "..") || goStartsWith relPath (str "/") then
      some (outsideErrResolved requestedPath (clean (absPath cwd requestedPath)))
    else none

/-- ResolvePath from internal/tools/security.go: an absolute request is
validated as-is and returned Cleaned; a relative request is joined with
the working directory, validated, and returned Cleaned. -/
def resolvePath (cwd workingDir requestedPath : Str) : Except Str Str :=
  if isAbs requestedPath then
    match validatePath cwd workingDir requestedPath with
    | some e => .error e
    | none => .ok (clean requestedPath)
  else
    match validatePath cwd workingDir (joinPath workingDir requestedPath) with
    | some e => .error e
    | none => .ok (clean (joinPath workingDir requestedPath))

example : clean (str "/home/user/proj/../../etc/passwd") = str "/home/etc/passwd" := by decide
example : clean (str "/work/..data") = str "/work/..data" := by decide
example : clean (str "") = str "." := by decide
example : clean (str "a/../b") = str "b" := by decide
example : clean (str "../x") = str "../x" := by decide
example : clean (str "/..") = str "/" := by decide
example : clean (str "/a/b/") = str "/a/b" := by decide
example : goRel (str "/a/b") (str "/a/c") = some (str "../c") := by decide
example : goRel (str "/a") (str "/a") = some (str ".") := by decide
example : goRel (str "/w") (str "/w/..data") = some (str "..data") := by decide
example : resolvePath (str "/w") (str "/w") (str "sub/a.txt") = .ok (str "/w/sub/a.txt") := rfl
example : (resolvePath (str "/w") (str "/w") (str "../etc/passwd")).isOk = false := by decide

/-! Structural facts about the path model, used to settle the path-jail
claims. -/

/-- A well-formed cleaned path component: nonempty, not a dot element,
and free of the separator. -/
def goodComp (c : Str) : Prop := c ≠ [] ∧ c ≠ ['.'] ∧ c ≠ ['.', '.'] ∧ '/' ∉ c

/-- The cleaned components of a path, as an absolute path. -/
def pathComps (p : Str) : List Str := cleanComps true [] (splitSep p)

theorem splitSep_ne_nil (s : Str) : splitSep s ≠ [] := by
  cases s with
  | nil => simp [splitSep]
  | cons c rest =>
    simp only [splitSep]
    split <;> simp

theorem splitSep_no_slash : ∀ (s : Str), ∀ c ∈ splitSep s, '/' ∉ c := by
  intro s
  induction s with
  | nil => intro c hc; simp [splitSep] at hc; simp [hc]
  | cons c0 rest ih =>
    intro c hc
    simp only [splitSep] at hc
    by_cases h0 : c0 = '/'
    · simp [h0] at hc
      rcases hc with hc | hc
      · simp [hc]
      · exact ih c hc
    · simp [h0] at hc
      rcases hc with hc | hc
      · subst hc
        intro hmem
        rcases List.mem_cons.mp hmem with h | h
        · exact h0 h.symm
        · have hh : (splitSep rest).headI ∈ splitSep rest := by
            cases hsr : splitSep rest with
            | nil => exact absurd hsr (splitSep_ne_nil rest)
            | cons f r => simp
          exact ih _ hh h
      · have : c ∈ splitSep rest := by
          cases hsr : splitSep rest with
          | nil => exact absurd hsr (splitSep_ne_nil rest)
          | cons f r => rw [hsr] at hc; exact List.mem_cons_of_mem f hc
        exact ih c this

theorem splitSep_of_no_slash (a : Str) (h : '/' ∉ a) : splitSep a = [a] := by
  induction a with
  | nil => simp [splitSep]
  | cons c rest ih =>
    have hc : c ≠ '/' := by intro he; exact h (he ▸ List.mem_cons_self c rest)
    have hr : '/' ∉ rest := fun hm => h (List.mem_cons_of_mem c hm)
    simp [splitSep, hc, ih hr]

theorem splitSep_append (a s : Str) (h : '/' ∉ a) :
    splitSep (a ++ '/' :: s) = a :: splitSep s := by
  induction a with
  | nil => simp [splitSep]
  | cons c rest ih =>
    have hc : c ≠ '/' := by intro he; exact h (he ▸ List.mem_cons_self c rest)
    have hr : '/' ∉ rest := fun hm => h (List.mem_cons_of_mem c hm)
    simp [splitSep, hc, ih hr]

theorem splitSep_joinSep : ∀ (cs : List Str), (∀ c ∈ cs, '/' ∉ c) → cs ≠ [] →
    splitSep (joinSep cs) = cs := by
  intro cs
  induction cs with
  | nil => intro _ h; exact absurd rfl h
  | cons a rest ih =>
    intro hns _
    cases rest with
    | nil => simpa [joinSep] using splitSep_of_no_slash a (hns a (by simp))
    | cons b t =>
      have ha : '/' ∉ a := hns a (by simp)
      have hrest : ∀ c ∈ b :: t, '/' ∉ c := fun c hc => hns c (List.mem_cons_of_mem a hc)
      have : joinSep (a :: b :: t) = a ++ '/' :: joinSep (b :: t) := rfl
      rw [this, splitSep_append a _ ha, ih hrest (by simp)]

theorem cleanComps_true_good : ∀ (cs : List Str) (acc : List Str),
    (∀ c ∈ acc, goodComp c) → (∀ c ∈ cs, '/' ∉ c) →
    ∀ c ∈ cleanComps true acc cs, goodComp c := by
  intro cs
  induction cs with
  | nil => intro acc hacc _ c hc; exact hacc c hc
  | cons c0 rest ih =>
    intro acc hacc hns c hc
    have hns0 : '/' ∉ c0 := hns c0 (by simp)
    have hnsr : ∀ x ∈ rest, '/' ∉ x := fun x hx => hns x (List.mem_cons_of_mem c0 hx)
    simp only [cleanComps] at hc
    by_cases h1 : c0 = [] ∨ c0 = ['.']
    · simp [h1] at hc; exact ih acc hacc hnsr c hc
    · by_cases h2 : c0 = ['.', '.']
      · simp [h1, h2] at hc
        by_cases h3 : acc ≠ [] ∧ acc.getLast? ≠ some ['.', '.']
        · simp [h3] at hc
          exact ih _ (fun x hx => hacc x (List.mem_of_mem_dropLast hx)) hnsr c hc
        · simp [h3] at hc
          exact ih acc hacc hnsr c hc
      · simp [h1, h2] at hc
        refine ih (acc ++ [c0]) ?_ hnsr c hc
        intro x hx
        rcases List.mem_append.mp hx with hx | hx
        · exact hacc x hx
        · simp at hx
          subst hx
          push_neg at h1
          exact ⟨h1.1, h1.2, h2, hns0⟩

theorem cleanComps_true_of_good : ∀ (cs : List Str) (acc : List Str),
    (∀ c ∈ cs, goodComp c) → cleanComps true acc cs = acc ++ cs := by
  intro cs
  induction cs with
  | nil => intro acc _; simp [cleanComps]
  | cons c0 rest ih =>
    intro acc hg
    have h0 := hg c0 (by simp)
    have hrest : ∀ c ∈ rest, goodComp c := fun c hc => hg c (List.mem_cons_of_mem c0 hc)
    have h1 : ¬ (c0 = [] ∨ c0 = ['.']) := by
      push_neg; exact ⟨h0.1, h0.2.1⟩
    simp only [cleanComps]
    rw [if_neg h1, if_neg h0.2.2.1, ih (acc ++ [c0]) hrest]
    simp

theorem pathComps_good (p : Str) : ∀ c ∈ pathComps p, goodComp c :=
  cleanComps_true_good (splitSep p) [] (by simp) (splitSep_no_slash p)

theorem pathComps_renderAbs (cs : List Str) (h : ∀ c ∈ cs, goodComp c) :
    pathComps (renderAbs cs) = cs := by
  cases hcs : cs with
  | nil => decide
  | cons a rest =>
    rw [← hcs]
    have hns : ∀ c ∈ cs, '/' ∉ c := fun c hc => (h c hc).2.2.2
    have hsplit : splitSep (renderAbs cs) = [] :: cs := by
      have : renderAbs cs = '/' :: joinSep cs := rfl
      rw [this]
      have h2 : splitSep ('/' :: joinSep cs) = [] :: splitSep (joinSep cs) := by
        simp [splitSep]
      rw [h2, splitSep_joinSep cs hns (by rw [hcs]; simp)]
    unfold pathComps
    rw [hsplit]
    have : cleanComps true [] ([] :: cs) = cleanComps true [] cs := by
      simp [cleanComps]
    rw [this, cleanComps_true_of_good cs [] h]
    simp

theorem isAbs_renderAbs (cs : List Str) : isAbs (renderAbs cs) = true := by
  have h : str "/" = ['/'] := by decide
  simp [isAbs, goStartsWith, renderAbs, h, List.isPrefixOf]

theorem clean_abs_eq (p : Str) (h : isAbs p = true) :
    clean p = renderAbs (pathComps p) := by
  simp [clean, h, pathComps]

theorem isAbs_clean (p : Str) (h : isAbs p = true) : isAbs (clean p) = true := by
  rw [clean_abs_eq p h]; exact isAbs_renderAbs _

theorem pathComps_clean (p : Str) (h : isAbs p = true) :
    pathComps (clean p) = pathComps p := by
  rw [clean_abs_eq p h]
  exact pathComps_renderAbs _ (pathComps_good p)

theorem clean_clean (p : Str) (h : isAbs p = true) : clean (clean p) = clean p := by
  rw [clean_abs_eq (clean p) (isAbs_clean p h), pathComps_clean p h, clean_abs_eq p h]

theorem renderRel_dotdot (rest : List Str) :
    goStartsWith (renderRel (str ".." :: rest)) (str "..") = true := by
  have h2 : str ".." = ['.', '.'] := by decide
  cases rest with
  | nil => decide
  | cons r t =>
    have : renderRel (str ".." :: r :: t) = str ".." ++ '/' :: joinSep (r :: t) := by
      simp [renderRel, joinSep]
    rw [this, h2]
    simp [goStartsWith, List.isPrefixOf]

theorem relComps_sound : ∀ (B T : List Str), (∀ c ∈ B, c ≠ ['.', '.']) →
    ∀ cs, relComps B T = some cs →
    goStartsWith (renderRel cs) (str "..") = false →
    B <+: T ∧ cs = T.drop B.length := by
  have h2 : str ".." = ['.', '.'] := by decide
  intro B
  induction B with
  | nil =>
    intro T _ cs hrel _
    simp [relComps] at hrel
    exact ⟨List.nil_prefix, by simp [hrel]⟩
  | cons b bs ih =>
    intro T hgood cs hrel hstart
    have hb : b ≠ ['.', '.'] := hgood b (by simp)
    cases T with
    | nil =>
      simp [relComps, hb] at hrel
      rw [← hrel] at hstart
      have : List.replicate (bs.length + 1) (str "..") = str ".." :: List.replicate bs.length (str "..") :=
        List.replicate_succ _ _
      rw [this] at hstart
      rw [renderRel_dotdot] at hstart
      exact absurd hstart (by simp)
    | cons t ts =>
      by_cases hbt : b = t
      · subst hbt
        simp only [relComps, if_pos rfl] at hrel
        have hgbs : ∀ c ∈ bs, c ≠ ['.', '.'] := fun c hc => hgood c (List.mem_cons_of_mem b hc)
        obtain ⟨hpre, hcs⟩ := ih ts hgbs cs hrel hstart
        refine ⟨?_, ?_⟩
        · exact (List.cons_prefix_cons).mpr ⟨rfl, hpre⟩
        · simpa using hcs
      · simp only [relComps, if_neg hbt, if_neg hb] at hrel
        have hcseq : List.replicate (b :: bs).length (str "..") ++ t :: ts = cs :=
          Option.some.inj hrel
        rw [← hcseq] at hstart
        have hlen : (b :: bs).length = bs.length + 1 := rfl
        rw [hlen, List.replicate_succ, List.cons_append, renderRel_dotdot] at hstart
        exact absurd hstart (by simp)

theorem goRel_renderAbs (X Y : List Str) (hX : ∀ c ∈ X, goodComp c) (hY : ∀ c ∈ Y, goodComp c) :
    goRel (renderAbs X) (renderAbs Y) =
      match relComps X Y with
      | none => none
      | some cs => some (renderRel cs) := by
  have e1 : cleanComps true [] (splitSep (renderAbs X)) = X := pathComps_renderAbs X hX
  have e2 : cleanComps true [] (splitSep (renderAbs Y)) = Y := pathComps_renderAbs Y hY
  simp [goRel, isAbs_renderAbs, pathComps] at e1 e2 ⊢
  rw [e1, e2]

theorem validatePath_none_prefix (cwd wd r : Str) (hwd : isAbs wd = true) (hr : isAbs r = true)
    (h : validatePath cwd wd r = none) : pathComps wd <+: pathComps r := by
  have hcr : clean (absPath cwd r) = renderAbs (pathComps r) := by
    simp only [absPath, hr, if_pos]
    rw [clean_clean r hr, clean_abs_eq r hr]
  have hcw : clean (absPath cwd wd) = renderAbs (pathComps wd) := by
    simp only [absPath, hwd, if_pos]
    rw [clean_clean wd hwd, clean_abs_eq wd hwd]
  unfold validatePath at h
  rw [hcr, hcw, goRel_renderAbs _ _ (pathComps_good wd) (pathComps_good r)] at h
  cases hrel : relComps (pathComps wd) (pathComps r) with
  | none => rw [hrel] at h; simp at h
  | some cs =>
    rw [hrel] at h
    simp only [] at h
    by_cases hs : goStartsWith (renderRel cs) (str "..") || goStartsWith (renderRel cs) (str "/")
    · rw [if_pos hs] at h; simp at h
    · have hnd : goStartsWith (renderRel cs) (str "..") = false := by
        cases hh : goStartsWith (renderRel cs) (str "..") with
        | false => rfl
        | true => exact absurd (by simp [hh]) hs
      have hgood : ∀ c ∈ pathComps wd, c ≠ ['.', '.'] := fun c hc => (pathComps_good wd c hc).2.2.1
      exact (relComps_sound (pathComps wd) (pathComps r) hgood cs hrel hnd).1

theorem isAbs_append (a b : Str) (h : isAbs a = true) : isAbs (a ++ b) = true := by
  have h1 : str "/" = ['/'] := by decide
  simp only [isAbs, goStartsWith, h1] at h ⊢
  cases a with
  | nil => simp [List.isPrefixOf] at h
  | cons c t =>
    simp [List.isPrefixOf] at h ⊢
    exact h

theorem isAbs_joinPath (wd p : Str) (h : isAbs wd = true) : isAbs (joinPath wd p) = true := by
  have hne : wd ≠ [] := by
    intro he
    rw [he] at h
    simp [isAbs, goStartsWith, List.isPrefixOf, show str "/" = ['/'] by decide] at h
  by_cases hp : p = []
  · simp only [joinPath, if_neg hne, if_pos hp]
    exact isAbs_clean wd h
  · simp only [joinPath, if_neg hne, if_neg hp]
    exact isAbs_clean _ (isAbs_append wd ('/' :: p) h)

/-- C1 (amended): lexical jail soundness. For an absolute working
directory, every path accepted by ResolvePath is absolute and its
cleaned components extend the cleaned components of the working
directory, so no accepted path is lexically outside the session root.
(The resolution is purely lexical: filepath.Abs and filepath.Clean do
not consult symlinks, which is why the original claim had to be
amended.) -/
theorem resolvePath_lexical_jail (cwd wd p q : Str) (hwd : isAbs wd = true)
    (h : resolvePath cwd wd p = .ok q) :
    isAbs q = true ∧ pathComps wd <+: pathComps q := by
  unfold resolvePath at h
  split at h
  case isTrue hp =>
    split at h
    case h_1 e he => exact absurd h (by simp)
    case h_2 hv =>
      have hq : clean p = q := Except.ok.inj h
      subst hq
      exact ⟨isAbs_clean p hp, by
        rw [pathComps_clean p hp]
        exact validatePath_none_prefix cwd wd p hwd hp hv⟩
  case isFalse hp =>
    split at h
    case h_1 e he => exact absurd h (by simp)
    case h_2 hv =>
      have habs : isAbs (joinPath wd p) = true := isAbs_joinPath wd p hwd
      have hq : clean (joinPath wd p) = q := Except.ok.inj h
      subst hq
      exact ⟨isAbs_clean _ habs, by
        rw [pathComps_clean _ habs]
        exact validatePath_none_prefix cwd wd (joinPath wd p) hwd habs hv⟩

/-- Witness for C1 (amended) at a concrete input. -/
theorem resolvePath_lexical_jail_witness :
    isAbs (str "/w") = true ∧
      resolvePath (str "/cwd") (str "/w") (str "a.txt") = .ok (str "/w/a.txt") ∧
      (isAbs (str "/w/a.txt") = true ∧ pathComps (str "/w") <+: pathComps (str "/w/a.txt")) :=
  ⟨by decide, rfl,
    resolvePath_lexical_jail (str "/cwd") (str "/w") (str "a.txt") (str "/w/a.txt")
      (by decide) rfl⟩

/-- One-step symlink resolution over an explicit link table: the first
link whose source is a textual prefix of the path is replaced by its
target. Used only to state the symlink-normalization part of claim C1;
the code under verification never consults any such table. -/
def symTarget (links : List (Str × Str)) (p : Str) : Str :=
  match links.find? (fun l => goStartsWith p l.1) with
  | some l => l.2 ++ p.drop l.1.length
  | none => p

/-- Modelled from the spec (the C1 claim wording): the guard resolves
paths to a symlink-normalized form, hence a path it accepts never
denotes an object outside the session root, for every symlink table. -/
def specC1SymlinkSafe : Prop :=
  ∀ (links : List (Str × Str)) (cwd wd p q : Str),
    isAbs wd = true → resolvePath cwd wd p = .ok q →
    pathComps wd <+: pathComps (symTarget links q)

/-- C1 counterexample: with root /w and a symlink /w/link pointing to
/etc, the guard accepts link/passwd (ValidatePath uses filepath.Abs and
filepath.Clean, which are purely lexical and never resolve symlinks),
yet the object denoted is /etc/passwd, outside the root. -/
theorem c1_counterexample : ¬ specC1SymlinkSafe := by
  intro hspec
  have h := hspec [(str "/w/link", str "/etc")] (str "/w") (str "/w")
      (str "link/passwd") (str "/w/link/passwd") (by decide) rfl
  revert h
  decide

/-- C10: jail over-rejection. A file named ..data directly under the
root is rejected by ValidatePath although it lies strictly inside the
root (the root components are a prefix of its components), because the
jail check is a textual HasPrefix ".." test on the computed relative
path rather than a component-wise containment test. -/
theorem c10_dotdot_overrejection :
    resolvePath (str "/w") (str "/w") (str "..data") =
      .error (outsideErrResolved (str "/w/..data") (str "/w/..data")) ∧
    pathComps (str "/w") <+: pathComps (str "/w/..data") ∧
    goRel (str "/w") (str "/w/..data") = some (str "..data") ∧
    goStartsWith (str "..data") (str "..") = true :=
  ⟨rfl, by decide, by decide, by decide⟩

theorem strInfix_append_left {x b : Str} (a : Str) (h : x <:+: b) : x <:+: a ++ b := by
  obtain ⟨s, t, heq⟩ := h
  exact ⟨a ++ s, t, by rw [← heq]; simp⟩

theorem strInfix_append_right {x a : Str} (b : Str) (h : x <:+: a) : x <:+: a ++ b := by
  obtain ⟨s, t, heq⟩ := h
  exact ⟨s, t ++ b, by rw [← heq]; simp⟩

theorem outsideErrShort_infixes (p : Str) :
    (str "outside working directory") <:+: outsideErrShort p ∧ p <:+: outsideErrShort p := by
  constructor
  · have h : (str "outside working directory") <:+: (str " is outside working directory") := by
      decide
    have he : outsideErrShort p =
        (((str "path " ++ [squote]) ++ p) ++ [squote]) ++ str " is outside working directory" := by
      simp [outsideErrShort, List.append_assoc]
    rw [he]
    exact strInfix_append_left _ h
  · have he : outsideErrShort p =
        (str "path " ++ [squote]) ++ (p ++ ([squote] ++ str " is outside working directory")) := by
      simp [outsideErrShort, List.append_assoc]
    rw [he]
    exact strInfix_append_left _ (strInfix_append_right _ (List.infix_refl p))

/-- C5 (amended): every rejection error from ValidatePath contains the
fixed text "outside working directory" and echoes the requested path
exactly as the guard received it (for a relative user path funnelled
through ResolvePath this is the joined absolute path, not the user
form), and in the traversal branch the message is the one that appends
the resolved absolute path. -/
theorem validatePath_error_text (cwd wd p e : Str) (h : validatePath cwd wd p = some e) :
    (str "outside working directory") <:+: e ∧ p <:+: e ∧
      (e = outsideErrShort p ∨ e = outsideErrResolved p (clean (absPath cwd p))) := by
  unfold validatePath at h
  split at h
  · have he : e = outsideErrShort p := (Option.some.inj h).symm
    subst he
    exact ⟨(outsideErrShort_infixes p).1, (outsideErrShort_infixes p).2, Or.inl rfl⟩
  · split at h
    · have he : e = outsideErrResolved p (clean (absPath cwd p)) := (Option.some.inj h).symm
      subst he
      have h1 := outsideErrShort_infixes p
      have hsh : outsideErrResolved p (clean (absPath cwd p)) =
          outsideErrShort p ++
            (str " (resolved to " ++ [squote] ++ clean (absPath cwd p) ++ [squote] ++ str ")") := by
        simp [outsideErrResolved, List.append_assoc]
      refine ⟨?_, ?_, Or.inr rfl⟩ <;> rw [hsh]
      · exact strInfix_append_right _ h1.1
      · exact strInfix_append_right _ h1.2
    · simp at h

/-- Witness for C5 (amended) at a concrete input. -/
theorem validatePath_error_text_witness :
    validatePath (str "/c") (str "/w") (str "/etc/x") =
        some (outsideErrResolved (str "/etc/x") (str "/etc/x")) ∧
      ((str "outside working directory") <:+: outsideErrResolved (str "/etc/x") (str "/etc/x") ∧
        (str "/etc/x") <:+: outsideErrResolved (str "/etc/x") (str "/etc/x") ∧
        (outsideErrResolved (str "/etc/x") (str "/etc/x") = outsideErrShort (str "/etc/x") ∨
          outsideErrResolved (str "/etc/x") (str "/etc/x") =
            outsideErrResolved (str "/etc/x") (clean (absPath (str "/c") (str "/etc/x"))))) :=
  ⟨rfl, validatePath_error_text (str "/c") (str "/w") (str "/etc/x") _ rfl⟩

/-- C5 counterexample: for the traversal request ../../etc/passwd under
root /home/user/proj, the error returned to the model contains the
resolved absolute path /home/etc/passwd outside the jail, and does not
contain the relative form the user supplied. -/
theorem c5_counterexample :
    resolvePath (str "/home/user/proj") (str "/home/user/proj") (str "../../etc/passwd") =
        .error (outsideErrResolved (str "/home/etc/passwd") (str "/home/etc/passwd")) ∧
      (str "/home/etc/passwd") <:+:
        outsideErrResolved (str "/home/etc/passwd") (str "/home/etc/passwd") ∧
      ¬ (str "../../etc/passwd") <:+:
        outsideErrResolved (str "/home/etc/passwd") (str "/home/etc/passwd") :=
  ⟨rfl, by decide, by decide⟩

/-! The approval engine: rules, regex escaping, matching, creation. -/

/-- An auto-approval rule (pkg/types ApprovalRule; timestamps omitted,
the id kept as a string). -/
structure ApprovalRule where
  id : Str
  toolName : Str
  paramPattern : Str
  description : Str
  useCount : Nat
deriving DecidableEq

/-- replaceAll from internal/tools/approval.go: scan left to right,
replacing each occurrence of old and advancing past it. The fuel
argument (the input length) only drives structural recursion: each step
consumes at least one character when old is nonempty, so the fuel never
runs out. The Go loop does not terminate on an empty old; every use in
the source passes a single-character old, and the model returns the
string unchanged in that degenerate case. -/
def replaceAllAux : Nat → Str → Str → Str → Str
  | 0, s, _, _ => s
  | _ + 1, [], _, _ => []
  | n + 1, c :: rest, old, new =>
    if old.isPrefixOf (c :: rest) then
      new ++ replaceAllAux n ((c :: rest).drop old.length) old new
    else c :: replaceAllAux n rest old new

def replaceAll (s old new : Str) : Str :=
  if old = [] then s else replaceAllAux s.length s old new

/-- The replacement table of escapeRegex (internal/tools/approval.go).
In Go this is a map iterated in unspecified order; the escape is the
fold of these replacements in some permutation of this list. -/
def escapeEntries : List (Str × Str) :=
  [ (str "\\", str "\\\\"),
    (str ".", str "\\."),
    (str "*", str "\\*"),
    (str "+", str "\\+"),
    (str "?", str "\\?"),
    (str "^", str "\\^"),
    (str "$", str "\\$"),
    (str "[", str "\\["),
    (str "]", str "\\]"),
    (str "\x7b", str "\\\x7b"),
    (str "\x7d", str "\\\x7d"),
    (str "(", str "\\("),
    (str ")", str "\\)"),
    (str "|", str "\\|") ]

/-- escapeRegex under a given iteration order of its replacement map. -/
def escapeRegexOrdered (order : List (Str × Str)) (s : Str) : Str :=
  order.foldl (fun acc e => replaceAll acc e.1 e.2) s

/-- An iteration order Go may legally produce: the backslash entry
visited last. -/
def escapeOrderBackslashLast : List (Str × Str) :=
  [ (str ".", str "\\."),
    (str "*", str "\\*"),
    (str "+", str "\\+"),
    (str "?", str "\\?"),
    (str "^", str "\\^"),
    (str "$", str "\\$"),
    (str "[", str "\\["),
    (str "]", str "\\]"),
    (str "\x7b", str "\\\x7b"),
    (str "\x7d", str "\\\x7d"),
    (str "(", str "\\("),
    (str ")", str "\\)"),
    (str "|", str "\\|"),
    (str "\\", str "\\\\") ]

/-- A token of the modelled regex fragment. -/
inductive RTok where
  | lit (c : Char)
  | dot
deriving DecidableEq

/-- RE2 metacharacters that cannot appear bare in a pattern of the
modelled fragment (a bare brace is a literal in RE2 and is kept). -/
def bareMeta : List Char := ['*', '+', '?', '^', '$', '[', ']', '(', ')', '|']

/-- Parse a pattern of the fragment: backslash-escaped punctuation is a
literal, a bare dot is the any-character token, a bare brace is a
literal (as in RE2), and other bare metacharacters or escapes of
alphanumerics fall outside the fragment (none). All patterns appearing
in the theorems below stay inside the fragment. -/
def parsePat : Str → Option (List RTok)
  | [] => some []
  | ['\\'] => none
  | '\\' :: c :: rest =>
    if c.isAlphanum then none
    else (parsePat rest).map (fun ts => RTok.lit c :: ts)
  | c :: rest =>
    if c = '.' then (parsePat rest).map (fun ts => RTok.dot :: ts)
    else if c ∈ bareMeta then none
    else (parsePat rest).map (fun ts => RTok.lit c :: ts)

/-- Match the token list against a prefix of the subject (the dot
matches any character; no newline appears in any subject here). -/
def toksMatchAt : List RTok → Str → Bool
  | [], _ => true
  | _ :: _, [] => false
  | RTok.lit c :: ts, x :: xs => (x = c) && toksMatchAt ts xs
  | RTok.dot :: ts, _ :: xs => toksMatchAt ts xs

/-- Unanchored search, as regexp.MatchString performs. -/
def toksSearch (ts : List RTok) (s : Str) : Bool :=
  toksMatchAt ts s ||
    match s with
    | [] => false
    | _ :: rest => toksSearch ts rest

/-- regexp.MatchString restricted to the modelled fragment: some
(search result), or none when the pattern falls outside the fragment. -/
def reMatch (pattern s : Str) : Option Bool :=
  (parsePat pattern).map (fun ts => toksSearch ts s)

/-- MatchRule from internal/config/approval.go: walk the rules in
order; skip a rule whose tool name differs; on the first rule whose
pattern matches the serialized params (regexp.MatchString, unanchored)
increment its use count and return it. Regex evaluation uses the
fragment model; patterns outside the fragment are skipped like the
continue-on-error branch of the source. Returns the matched rule (after
the increment) and the updated rule list. -/
def matchRule : List ApprovalRule → Str → Str → Option ApprovalRule × List ApprovalRule
  | [], _, _ => (none, [])
  | r :: rs, toolName, paramsStr =>
    if r.toolName = toolName ∧ reMatch r.paramPattern paramsStr = some true then
      ((some ⟨r.id, r.toolName, r.paramPattern, r.description, r.useCount + 1⟩),
        ⟨r.id, r.toolName, r.paramPattern, r.description, r.useCount + 1⟩ :: rs)
    else
      ((matchRule rs toolName paramsStr).1, r :: (matchRule rs toolName paramsStr).2)

/-- A conservative model of regexp.Compile success: tracks backslash
escapes and the balance of groups and character classes. It is adequate
for every pattern appearing in this development (fully escaped literal
patterns, the match-anything pattern, and an unbalanced group as the
invalid example). -/
def regexScan : Str → Nat → Bool → Bool
  | [], depth, inClass => depth = 0 && !inClass
  | '\\' :: rest, depth, inClass =>
    match rest with
    | [] => false
    | _ :: rest2 => regexScan rest2 depth inClass
  | '(' :: rest, depth, inClass =>
    if inClass then regexScan rest depth inClass else regexScan rest (depth + 1) inClass
  | ')' :: rest, depth, inClass =>
    if inClass then regexScan rest depth inClass
    else match depth with
      | 0 => false
      | d + 1 => regexScan rest d inClass
  | '[' :: rest, depth, _ => regexScan rest depth true
  | ']' :: rest, depth, _ => regexScan rest depth false
  | _ :: rest, depth, inClass => regexScan rest depth inClass

/-- regexp.Compile succeeds on the pattern (model). -/
def regexCompileOk (p : Str) : Bool := regexScan p 0 false

/-- AddRule from internal/config/approval.go: validate that the pattern
compiles and append the new rule (fresh uuid modelled as the empty id,
use count zero). There is no check against a match-anything pattern. -/
def addRule (rules : List ApprovalRule) (toolName paramPattern description : Str) :
    Except Str (ApprovalRule × List ApprovalRule) :=
  if regexCompileOk paramPattern then
    .ok (⟨[], toolName, paramPattern, description, 0⟩,
      rules ++ [⟨[], toolName, paramPattern, description, 0⟩])
  else .error (str "invalid regex pattern")

/-- truncate from internal/tools/approval.go. -/
def truncateGo (s : Str) (maxLen : Nat) : Str :=
  if s.length ≤ maxLen then s else s.take (maxLen - 3) ++ str "..."

/-- CreateAutoApprovalRule from internal/tools/approval.go: escape the
serialized params into a pattern (under the map iteration order
`order`), build the description, and add the rule; on AddRule failure
the list is unchanged (the workflow still approves the call once). -/
def createAutoApprovalRule (order : List (Str × Str)) (rules : List ApprovalRule)
    (toolName paramsJSON : Str) : List ApprovalRule :=
  match addRule rules toolName (escapeRegexOrdered order paramsJSON)
      (str "Auto-approve " ++ toolName ++ str " with params: " ++ truncateGo paramsJSON 50) with
  | .ok (_, rs) => rs
  | .error _ => rules

/-- The slice of the types.Tool interface visible to the approval path. -/
structure GoTool where
  name : Str
  requiresApproval : Bool
deriving DecidableEq

/-- The user's answer that PromptForApproval reads from stdin. -/
inductive PromptResponse where
  | yes
  | no
  | always
deriving DecidableEq

/-- CheckApproval from internal/tools/approval.go: consult MatchRule
first; on a rule match return (approved, auto-approved, description)
with the bumped rule list; otherwise prompt, mapping yes, no and always
to the triples of the source (always also creates a rule). The tool
argument's RequiresApproval method is never consulted by this function. -/
def checkApproval (rules : List ApprovalRule) (toolName paramsJSON : Str)
    (tool : GoTool) (response : PromptResponse) (order : List (Str × Str)) :
    (Bool × Bool × Str) × List ApprovalRule :=
  match matchRule rules toolName paramsJSON with
  | (some r, rs2) => ((true, true, r.description), rs2)
  | (none, _) =>
    match response with
    | .yes => ((true, false, []), rules)
    | .no => ((false, false, []), rules)
    | .always =>
      ((true, false, str "newly created rule"),
        createAutoApprovalRule order rules toolName paramsJSON)

/-- Canonical JSON of the parameter map with path equal to a.txt
(encoding/json serializes Go maps with sorted keys). -/
def jsonPathA : Str := str "\x7b\"path\":\"a.txt\"\x7d"

/-- Canonical JSON of the same map with an extra field added. -/
def jsonPathAExtra : Str := str "\x7b\"extra\":1,\"path\":\"a.txt\"\x7d"

example : escapeRegexOrdered escapeEntries jsonPathA =
    str "\\\x7b\"path\":\"a\\.txt\"\\\x7d" := by decide
example : escapeRegexOrdered escapeOrderBackslashLast jsonPathA =
    str "\\\\\x7b\"path\":\"a\\\\.txt\"\\\\\x7d" := by decide

/-- C2 (code bug): escapeRegex iterates a Go map, whose iteration order
the language leaves unspecified. Under the order in which the source
lists the entries (backslash first) the escape is exact: the pattern
matches the canonical JSON of exactly that parameter set, the
synthesized rule auto-approves the identical re-call with its use count
incremented, and a call with an added field is not matched. But under
the equally legal order that visits the backslash entry last, the
backslashes introduced by earlier replacements are doubled, the pattern
no longer matches even the identical re-call, and the just-created rule
never fires. -/
theorem c2_escape_map_order :
    escapeOrderBackslashLast.Perm escapeEntries ∧
    reMatch (escapeRegexOrdered escapeEntries jsonPathA) jsonPathA = some true ∧
    reMatch (escapeRegexOrdered escapeEntries jsonPathA) jsonPathAExtra = some false ∧
    (matchRule [⟨[], str "read_file", escapeRegexOrdered escapeEntries jsonPathA, str "r", 0⟩]
        (str "read_file") jsonPathA).1 =
      some ⟨[], str "read_file", escapeRegexOrdered escapeEntries jsonPathA, str "r", 1⟩ ∧
    reMatch (escapeRegexOrdered escapeOrderBackslashLast jsonPathA) jsonPathA = some false ∧
    (matchRule
        [⟨[], str "read_file", escapeRegexOrdered escapeOrderBackslashLast jsonPathA, str "r", 0⟩]
        (str "read_file") jsonPathA).1 = none :=
  ⟨by decide, by decide, by decide, by decide, by decide, by decide⟩

/-- Rule lists reachable through the approval manager operations from
an empty store: AddRule appends (when the pattern compiles) and
MatchRule bumps a use count. -/
inductive ReachableRules : List ApprovalRule → Prop where
  | empty : ReachableRules []
  | add (rules : List ApprovalRule) (t p d : Str) (r : ApprovalRule) (rs : List ApprovalRule) :
      ReachableRules rules → addRule rules t p d = .ok (r, rs) → ReachableRules rs
  | matched (rules : List ApprovalRule) (t s : Str) :
      ReachableRules rules → ReachableRules (matchRule rules t s).2

theorem matchRule_preserves_patterns (rules : List ApprovalRule) (t s : Str) :
    ∀ r2 ∈ (matchRule rules t s).2, ∃ r ∈ rules, r2.paramPattern = r.paramPattern := by
  induction rules with
  | nil => simp [matchRule]
  | cons r rs ih =>
    intro r2 h2
    simp only [matchRule] at h2
    by_cases hc : r.toolName = t ∧ reMatch r.paramPattern s = some true
    · rw [if_pos hc] at h2
      rcases List.mem_cons.mp h2 with h | h
      · exact ⟨r, by simp, by rw [h]⟩
      · exact ⟨r2, List.mem_cons_of_mem r h, rfl⟩
    · rw [if_neg hc] at h2
      rcases List.mem_cons.mp h2 with h | h
      · exact ⟨r, by simp, by rw [h]⟩
      · obtain ⟨r0, hr0, hpat⟩ := ih r2 h
        exact ⟨r0, List.mem_cons_of_mem r hr0, hpat⟩

/-- C3 (amended): every rule in a reachable store has a pattern that
compiles as a valid regex. AddRule validates only compilability; it
does not reject the match-anything pattern (see the counterexample). -/
theorem reachable_rules_compile (rules : List ApprovalRule) (h : ReachableRules rules) :
    ∀ r ∈ rules, regexCompileOk r.paramPattern = true := by
  induction h with
  | empty => simp
  | add rules0 t p d r rs _ hadd ih =>
    intro r2 h2
    by_cases hok : regexCompileOk p = true
    · simp only [addRule, if_pos hok] at hadd
      have hpair := Except.ok.inj hadd
      have hrs : rules0 ++ [⟨[], t, p, d, 0⟩] = rs := congrArg Prod.snd hpair
      rw [← hrs] at h2
      rcases List.mem_append.mp h2 with h | h
      · exact ih r2 h
      · simp at h
        rw [h]
        exact hok
    · simp only [addRule, if_neg hok] at hadd
      exact absurd hadd (by simp)
  | matched rules0 t s _ ih =>
    intro r2 h2
    obtain ⟨r, hr, hpat⟩ := matchRule_preserves_patterns rules0 t s r2 h2
    rw [hpat]
    exact ih r hr

/-- Witness for C3 (amended) at a concrete reachable store. -/
theorem reachable_rules_compile_witness :
    ReachableRules [⟨[], str "read_file", str "\\.txt", str "d", 0⟩] ∧
      ∀ r ∈ [(⟨[], str "read_file", str "\\.txt", str "d", 0⟩ : ApprovalRule)],
        regexCompileOk r.paramPattern = true :=
  have hreach : ReachableRules [⟨[], str "read_file", str "\\.txt", str "d", 0⟩] :=
    ReachableRules.add [] (str "read_file") (str "\\.txt") (str "d")
      ⟨[], str "read_file", str "\\.txt", str "d", 0⟩
      [⟨[], str "read_file", str "\\.txt", str "d", 0⟩] ReachableRules.empty rfl
  ⟨hreach, reachable_rules_compile _ hreach⟩

/-- Modelled from the spec (the C3 claim wording): no reachable rule
list ever contains the unrestricted match-anything pattern, because
AddRule rejects it at creation time. -/
def specC3NoBlanket : Prop :=
  ∀ rules, ReachableRules rules → ∀ r ∈ rules, r.paramPattern ≠ str ".*"

/-- C3 counterexample: AddRule accepts the match-anything pattern, so a
store holding a blanket rule is reachable. -/
theorem c3_counterexample : ¬ specC3NoBlanket := by
  intro h
  have hreach : ReachableRules [⟨[], str "read_file", str ".*", str "blanket", 0⟩] :=
    ReachableRules.add [] (str "read_file") (str ".*") (str "blanket")
      ⟨[], str "read_file", str ".*", str "blanket", 0⟩
      [⟨[], str "read_file", str ".*", str "blanket", 0⟩] ReachableRules.empty rfl
  exact h _ hreach ⟨[], str "read_file", str ".*", str "blanket", 0⟩ (by simp) rfl

/-- terminal_last_command as seen by the approval path: its
RequiresApproval method returns false. -/
def terminalLastCommandTool : GoTool := ⟨str "terminal_last_command", false⟩

/-- C4 (code bug): CheckApproval has no requiresApproval short circuit.
terminal_last_command declares RequiresApproval false, yet with an
empty rule store its call reaches the interactive prompt - answering no
rejects it - and a persisted rule for this tool is consulted and
auto-approves it, instead of the immediate (true, false, "") return the
specification requires for exempt tools. -/
theorem c4_no_short_circuit :
    terminalLastCommandTool.requiresApproval = false ∧
    (checkApproval [] (str "terminal_last_command") (str "\x7b\x7d")
        terminalLastCommandTool .no escapeEntries).1 = (false, false, []) ∧
    (checkApproval [⟨[], str "terminal_last_command", [], str "stored rule", 0⟩]
        (str "terminal_last_command") (str "\x7b\x7d")
        terminalLastCommandTool .no escapeEntries).1 = (true, true, str "stored rule") :=
  ⟨rfl, by decide, by decide⟩

/-! The agent loop: decoding proposed tool calls, feeding back results
(C6), and the conversation context manager (C9). -/

/-- Message roles (pkg/types). -/
inductive MessageRole where
  | user
  | assistant
  | system
  | tool
deriving DecidableEq

/-- A conversation message (pkg/types Message; timestamp and metadata
beyond the mirrored tool output omitted). -/
structure Message where
  role : MessageRole
  content : Str
deriving DecidableEq

/-- A decoded tool call (pkg/types ToolCall, parameters kept in their
serialized JSON form). -/
structure ToolCall where
  id : Str
  toolName : Str
  paramsJSON : Str
deriving DecidableEq

/-- A tool execution result (pkg/types ToolResult; the fields the
claims mention). -/
structure ToolResult where
  toolCallID : Str
  success : Bool
  output : Str
  error : Str
deriving DecidableEq

/-- An assistant-proposed tool call as received from the LLM: id, tool
name, and the outcome of json.Unmarshal on its arguments string (none
when the paramsJSON is not valid JSON). -/
structure RawToolCall where
  id : Str
  toolName : Str
  paramsParsed : Option Str
deriving DecidableEq

/-- The tool-call decoding loop of Agent.Run (agent.go lines 145-162):
parse each proposed call's arguments; a call whose arguments fail to
parse is logged and skipped with continue - it is never added to the
assistant message's tool calls. -/
def processAssistantToolCalls (calls : List RawToolCall) : List ToolCall :=
  calls.filterMap (fun c => c.paramsParsed.map (fun p => ⟨c.id, c.toolName, p⟩))

/-- The tool execution loop of one agent iteration (agent.go lines
177-209): each decoded call yields one ToolResult, appended in order;
`exec` abstracts executeToolCall. -/
def turnToolResults (exec : ToolCall → ToolResult) (calls : List RawToolCall) : List ToolResult :=
  (processAssistantToolCalls calls).map exec

/-- The tool-role messages the same loop appends, one per result,
mirroring the result output. -/
def turnToolMessages (exec : ToolCall → ToolResult) (calls : List RawToolCall) : List Message :=
  (turnToolResults exec calls).map (fun r => ⟨MessageRole.tool, r.output⟩)

/-- Modelled from the spec (the C6 claim wording): every proposed call
whose paramsJSON fails to parse is recorded as a failed ToolResult for
that call (and then fed back as a tool message). -/
def specC6MalformedSurfaced : Prop :=
  ∀ (exec : ToolCall → ToolResult) (calls : List RawToolCall) (c : RawToolCall),
    c ∈ calls → c.paramsParsed = none →
    ∃ r ∈ turnToolResults exec calls, r.toolCallID = c.id ∧ r.success = false

/-- C6 counterexample: a turn proposing one call with malformed
arguments produces no ToolResult at all - the call is dropped, not
surfaced. -/
theorem c6_counterexample : ¬ specC6MalformedSurfaced := by
  intro h
  obtain ⟨r, hr, _⟩ := h (fun tc => ⟨tc.id, true, [], []⟩)
    [⟨str "call-1", str "create_file", none⟩] ⟨str "call-1", str "create_file", none⟩
    (by simp) rfl
  simp [turnToolResults, processAssistantToolCalls] at hr

/-- C6 (amended): a proposed call whose paramsJSON fails to parse is
skipped entirely: it is not added to the assistant message, and it
contributes no ToolResult and no tool message. In particular a turn all
of whose calls are malformed is treated as a turn with no tool calls
(the loop then exits), with nothing fed back to the model. -/
theorem malformed_calls_dropped (exec : ToolCall → ToolResult) (calls : List RawToolCall)
    (h : ∀ c ∈ calls, c.paramsParsed = none) :
    processAssistantToolCalls calls = [] ∧ turnToolResults exec calls = [] ∧
      turnToolMessages exec calls = [] := by
  have h1 : processAssistantToolCalls calls = [] := by
    unfold processAssistantToolCalls
    rw [List.filterMap_eq_nil_iff]
    intro c hc
    rw [h c hc]
    rfl
  exact ⟨h1, by simp [turnToolResults, h1], by simp [turnToolMessages, turnToolResults, h1]⟩

/-- A concrete executor used only to instantiate witnesses. -/
def sampleExec : ToolCall → ToolResult := fun tc => ⟨tc.id, true, str "ok", []⟩

/-- Witness for C6 (amended) at a concrete turn. -/
theorem malformed_calls_dropped_witness :
    (∀ c ∈ [(⟨str "call-1", str "create_file", none⟩ : RawToolCall)], c.paramsParsed = none) ∧
      (processAssistantToolCalls [⟨str "call-1", str "create_file", none⟩] = [] ∧
        turnToolResults sampleExec [⟨str "call-1", str "create_file", none⟩] = [] ∧
        turnToolMessages sampleExec [⟨str "call-1", str "create_file", none⟩] = []) :=
  ⟨by simp, malformed_calls_dropped sampleExec [⟨str "call-1", str "create_file", none⟩] (by simp)⟩

/-- ContextManager (internal/agent/context.go): the message cap
(NewContextManager is called with 100 in agent.go). -/
structure ContextManager where
  maxMessages : Nat
deriving DecidableEq

/-- The context manager the agent constructs: NewContextManager(100). -/
def newAgentContextManager : ContextManager := ⟨100⟩

/-- PruneMessages from internal/agent/context.go: keep only the most
recent maxMessages when over the cap. -/
def pruneMessages (cm : ContextManager) (msgs : List Message) : List Message :=
  if msgs.length ≤ cm.maxMessages then msgs
  else msgs.drop (msgs.length - cm.maxMessages)

/-- AddMessage from internal/agent/context.go: append, then prune when
the cap is exceeded. -/
def addMessage (cm : ContextManager) (msgs : List Message) (m : Message) : List Message :=
  if (msgs ++ [m]).length > cm.maxMessages then pruneMessages cm (msgs ++ [m])
  else msgs ++ [m]

/-- Keep the last n entries (drop from the front). -/
def tailKeep (n : Nat) (l : List Message) : List Message := l.drop (l.length - n)

theorem addMessage_eq_tailKeep (cm : ContextManager) (msgs : List Message) (m : Message) :
    addMessage cm msgs m = tailKeep cm.maxMessages (msgs ++ [m]) := by
  unfold addMessage pruneMessages tailKeep
  by_cases h : (msgs ++ [m]).length ≤ cm.maxMessages
  · rw [if_neg (by omega), Nat.sub_eq_zero_of_le h]
    simp
  · rw [if_pos (by omega), if_neg h]

theorem tailKeep_absorb (n : Nat) (l r : List Message) :
    tailKeep n (tailKeep n l ++ r) = tailKeep n (l ++ r) := by
  unfold tailKeep
  have hd : l.length - n ≤ l.length := Nat.sub_le _ _
  have h1 : List.drop (l.length - n) l ++ r = List.drop (l.length - n) (l ++ r) :=
    (List.drop_append_of_le_length hd).symm
  rw [h1, List.drop_drop]
  congr 1
  simp only [List.length_drop, List.length_append]
  omega

theorem foldl_addMessage (cm : ContextManager) (init : List Message) (a : Message)
    (rest : List Message) :
    (a :: rest).foldl (addMessage cm) init =
      tailKeep cm.maxMessages (init ++ a :: rest) := by
  induction rest generalizing init a with
  | nil => simpa using addMessage_eq_tailKeep cm init a
  | cons b t ih =>
    have h1 : (a :: b :: t).foldl (addMessage cm) init =
        (b :: t).foldl (addMessage cm) (addMessage cm init a) := rfl
    rw [h1, ih (addMessage cm init a) b, addMessage_eq_tailKeep cm init a,
      tailKeep_absorb]
    simp

theorem length_tailKeep_le (n : Nat) (l : List Message) : (tailKeep n l).length ≤ n := by
  unfold tailKeep
  simp [List.length_drop]
  omega

theorem drop_suffix_drop (l : List Message) (a b : Nat) (h : a ≤ b) :
    l.drop b <:+ l.drop a := by
  have : l.drop b = (l.drop a).drop (b - a) := by
    rw [List.drop_drop]
    congr 1
    omega
  rw [this]
  exact List.drop_suffix _ _

/-- C9: tail-keep context invariant. Starting from any message list,
after any nonempty sequence of appends through AddMessage the list is
exactly the tail of the full appended sequence (messages are dropped
only from the front), its length is at most maxMessages, and the most
recent min(k, maxMessages) appended messages are all retained in
order as a suffix. agent.go constructs the manager with the default
cap 100 (newAgentContextManager). -/
theorem contextManager_tail_keep (cm : ContextManager) (init appended : List Message)
    (h : appended ≠ []) :
    appended.foldl (addMessage cm) init = tailKeep cm.maxMessages (init ++ appended) ∧
      (appended.foldl (addMessage cm) init).length ≤ cm.maxMessages ∧
      tailKeep cm.maxMessages appended <:+ appended.foldl (addMessage cm) init := by
  cases appended with
  | nil => exact absurd rfl h
  | cons a rest =>
    have hfold := foldl_addMessage cm init a rest
    refine ⟨hfold, by rw [hfold]; exact length_tailKeep_le _ _, ?_⟩
    rw [hfold]
    unfold tailKeep
    have hsplit : (init ++ a :: rest).drop (init.length + ((a :: rest).length - cm.maxMessages)) =
        (a :: rest).drop ((a :: rest).length - cm.maxMessages) := by
      rw [← List.drop_drop, List.drop_left]
    rw [← hsplit]
    apply drop_suffix_drop
    simp [List.length_append]
    omega

/-- Witness for C9 at a concrete manager and append sequence. -/
theorem contextManager_tail_keep_witness :
    ([(⟨MessageRole.assistant, str "b"⟩ : Message), ⟨MessageRole.tool, str "c"⟩] ≠ []) ∧
      ([(⟨MessageRole.assistant, str "b"⟩ : Message), ⟨MessageRole.tool, str "c"⟩].foldl
          (addMessage newAgentContextManager) [⟨MessageRole.user, str "a"⟩] =
        tailKeep newAgentContextManager.maxMessages
          ([⟨MessageRole.user, str "a"⟩] ++
            [⟨MessageRole.assistant, str "b"⟩, ⟨MessageRole.tool, str "c"⟩]) ∧
      ([(⟨MessageRole.assistant, str "b"⟩ : Message), ⟨MessageRole.tool, str "c"⟩].foldl
          (addMessage newAgentContextManager) [⟨MessageRole.user, str "a"⟩]).length ≤
        newAgentContextManager.maxMessages ∧
      tailKeep newAgentContextManager.maxMessages
          [⟨MessageRole.assistant, str "b"⟩, ⟨MessageRole.tool, str "c"⟩] <:+
        [(⟨MessageRole.assistant, str "b"⟩ : Message), ⟨MessageRole.tool, str "c"⟩].foldl
          (addMessage newAgentContextManager) [⟨MessageRole.user, str "a"⟩]) :=
  ⟨by simp,
    contextManager_tail_keep newAgentContextManager [⟨MessageRole.user, str "a"⟩]
      [⟨MessageRole.assistant, str "b"⟩, ⟨MessageRole.tool, str "c"⟩] (by simp)⟩

/-! run_in_terminal and the Command history (C7). -/

/-- A Command-history entry (ExecutedCommand; the timestamp omitted). -/
structure ExecutedCommand where
  command : Str
  exitCode : Int
  stdout : Str
  stderr : Str
deriving DecidableEq

/-- The discriminated outcome of cmd.Run() exactly as the source
inspects it: no error; an exec.ExitError carrying an exit code; or any
other error together with whether the command context reports
DeadlineExceeded (the timeout case). -/
inductive RunErr where
  | exitError (code : Int)
  | otherErr (deadlineExceeded : Bool) (msg : Str)
deriving DecidableEq

/-- Decimal rendering of a Nat, for the %d directives. -/
def natToStr (n : Nat) : Str := (Nat.repr n).data

/-- Decimal rendering of an Int. -/
def intToStr (i : Int) : Str :=
  match i with
  | .ofNat n => natToStr n
  | .negSucc n => '-' :: natToStr (n + 1)

/-- The 100 KiB cap on each captured stream, with the truncation
notice. -/
def capOutput (s : Str) : Str :=
  if s.length > 100 * 1024 then s.take (100 * 1024) ++ str "\n... (output truncated)" else s

/-- The formatted output block of a completed run. -/
def runOutputBlock (command : Str) (exitCode : Int) (so se : Str) : Str :=
  str "Command: " ++ command ++ str "\nExit code: " ++ intToStr exitCode ++
    (if so.length > 0 then str "\nStdout:\n" ++ so else []) ++
    (if se.length > 0 then str "\nStderr:\n" ++ se else [])

/-- The completed-run tail of Execute: cap both streams, append the
entry to the Command history, and report success iff the exit code is
zero. -/
def runFinish (history : List ExecutedCommand) (command : Str) (exitCode : Int)
    (stdout stderr : Str) : ToolResult × List ExecutedCommand :=
  ((⟨[], decide (exitCode = 0), runOutputBlock command exitCode (capOutput stdout) (capOutput stderr), []⟩ : ToolResult),
    history ++ [⟨command, exitCode, capOutput stdout, capOutput stderr⟩])

/-- The branch dispatch of RunInTerminalTool.Execute after cmd.Run()
returns, exactly in source order: err nil, then the *exec.ExitError
type assertion, then the context-DeadlineExceeded check (an early
return above the history append), then any other error (also an early
return). Which branch a concrete run takes is not free: it is fixed by
`runError` below, which encodes how cmd.Run reports each outcome. -/
def runInTerminalExecute (history : List ExecutedCommand) (command : Str)
    (timeoutSeconds : Nat) (runErr : Option RunErr) (stdout stderr : Str) :
    ToolResult × List ExecutedCommand :=
  match runErr with
  | none => runFinish history command 0 stdout stderr
  | some (.exitError code) => runFinish history command code stdout stderr
  | some (.otherErr true _) =>
    ((⟨[], false,
        str "Command timed out after " ++ natToStr timeoutSeconds ++ str " seconds",
        str "timeout after " ++ natToStr timeoutSeconds ++ str " seconds"⟩ : ToolResult),
      history)
  | some (.otherErr false msg) =>
    ((⟨[], false, str "Command failed: " ++ msg, msg⟩ : ToolResult), history)

/-- What actually happened to the shell command: it ran and exited on
its own; it started and the context deadline killed it (a timed-out
run); or its process never ran to completion under the runner - fork or
exec failure, the context already done at start, or a failed kill -
with the flag telling whether the command context reports
DeadlineExceeded. -/
inductive RunOutcome where
  | exited (code : Int)
  | killedByDeadline
  | neverStarted (ctxDone : Bool) (msg : Str)
deriving DecidableEq

/-- The error cmd.Run() returns for each outcome, per os/exec: nil for
a zero exit; an *exec.ExitError for a started process that exits
nonzero or is killed - death by the deadline kill signal reports
ExitCode() = -1 - and a non-ExitError error only when the process never
ran to completion under the runner. In particular a timed-out run
surfaces as an ExitError, not as the context error. -/
def runError : RunOutcome → Option RunErr
  | .exited code => if code = 0 then none else some (.exitError code)
  | .killedByDeadline => some (.exitError (-1))
  | .neverStarted ctxDone msg => some (.otherErr ctxDone msg)

/-- RunInTerminalTool.Execute on a run with the given outcome: the
source's branch dispatch applied to the error that outcome produces. -/
def runInTerminal (history : List ExecutedCommand) (command : Str)
    (timeoutSeconds : Nat) (outcome : RunOutcome) (stdout stderr : Str) :
    ToolResult × List ExecutedCommand :=
  runInTerminalExecute history command timeoutSeconds (runError outcome) stdout stderr

/-- Modelled from the spec (the C7 claim wording): every execution of
run_in_terminal appends an entry to the Command history, whatever the
outcome of the run. -/
def specC7HistoryComplete : Prop :=
  ∀ history command timeoutSeconds outcome stdout stderr,
    (runInTerminal history command timeoutSeconds outcome stdout stderr).2.length =
      history.length + 1

/-- C7 counterexample: an execution whose shell process never starts
(a non-ExitError error from cmd.Run with the context not
deadline-exceeded) takes the final early-return branch, above the
history append, so that execution records nothing - refuting the
universal claim. A timed-out run is NOT such a case; see the amended
theorem. -/
theorem c7_counterexample : ¬ specC7HistoryComplete := by
  intro h
  have h1 := h [] (str "sh") 1 (.neverStarted false (str "fork-exec failure")) [] []
  simp [runInTerminal, runError, runInTerminalExecute] at h1

/-- C7 (amended): every execution whose shell process starts appends
its entry (command, exit code, capped streams) to the Command history.
This includes an execution cancelled by its timeout: the deadline kill
surfaces from cmd.Run as an *exec.ExitError, which the source's type
assertion catches before the DeadlineExceeded check, so the run falls
through the normal path and is recorded with exit code -1 - and its
result is the ordinary exit-code failure, never the "timed out after N
seconds" message. That message (with history left unchanged) is
produced only when the process never ran and the context is already
past its deadline; the remaining never-started case also leaves the
history unchanged. -/
theorem runInTerminal_history (history : List ExecutedCommand) (command : Str)
    (t : Nat) (stdout stderr msg : Str) (code : Int) (d : Bool) :
    (runInTerminal history command t (.exited code) stdout stderr).2 =
        history ++ [⟨command, code, capOutput stdout, capOutput stderr⟩] ∧
      (runInTerminal history command t .killedByDeadline stdout stderr).2 =
        history ++ [⟨command, -1, capOutput stdout, capOutput stderr⟩] ∧
      (runInTerminal history command t .killedByDeadline stdout stderr).1 =
        (runFinish history command (-1) stdout stderr).1 ∧
      (runInTerminal history command t .killedByDeadline stdout stderr).1.success = false ∧
      (runInTerminal history command t (.neverStarted d msg) stdout stderr).2 = history ∧
      (runInTerminal history command t (.neverStarted true msg) stdout stderr).1.error =
        str "timeout after " ++ natToStr t ++ str " seconds" := by
  refine ⟨?_, rfl, rfl, rfl, ?_, rfl⟩
  · by_cases hc : code = 0
    · subst hc; rfl
    · simp [runInTerminal, runError, hc, runInTerminalExecute, runFinish]
  · cases d <;> rfl

/-! replace_string_in_file (C8). -/

/-- strings.Replace with count 1: replace the first occurrence of old
(the source guarantees a nonempty old via Validate). -/
def replaceFirst : Str → Str → Str → Str
  | [], _, _ => []
  | c :: rest, old, new =>
    if old.isPrefixOf (c :: rest) then new ++ (c :: rest).drop old.length
    else c :: replaceFirst rest old new

/-- The content transformation of ReplaceStringInFileTool.Execute
(file.go lines 492-518): when the old string does not occur the file is
left unchanged and the result fails; otherwise the first occurrence is
replaced and the new content written. Returns (success, new content). -/
def replaceStringExecute (content oldS newS : Str) : Bool × Str :=
  if strContains content oldS = false then (false, content)
  else (true, replaceFirst content oldS newS)

theorem replaceFirst_spec : ∀ (content oldS newS : Str), oldS ≠ [] →
    strContains content oldS = true →
    ∃ pre suf, content = pre ++ oldS ++ suf ∧
      replaceFirst content oldS newS = pre ++ newS ++ suf ∧
      ∀ pre2 suf2, content = pre2 ++ oldS ++ suf2 → pre.length ≤ pre2.length := by
  intro content
  induction content with
  | nil =>
    intro oldS newS hne hc
    exfalso
    cases oldS with
    | nil => exact hne rfl
    | cons o os => simp [strContains, List.isPrefixOf] at hc
  | cons c rest ih =>
    intro oldS newS hne hc
    by_cases hpre : oldS.isPrefixOf (c :: rest) = true
    · obtain ⟨t, ht⟩ := List.isPrefixOf_iff_prefix.mp hpre
      refine ⟨[], t, by simp [← ht], ?_, fun pre2 suf2 _ => by simp⟩
      simp only [replaceFirst, if_pos hpre, List.nil_append]
      have hdrop : (c :: rest).drop oldS.length = t := by
        rw [← ht]
        exact List.drop_left _ _
      rw [hdrop]
    · have hstep : strContains (c :: rest) oldS =
          (oldS.isPrefixOf (c :: rest) || strContains rest oldS) := rfl
      have hpreF : List.isPrefixOf oldS (c :: rest) = false :=
        Bool.not_eq_true _ ▸ hpre
      rw [hstep, hpreF] at hc
      simp only [Bool.false_or] at hc
      obtain ⟨pre, suf, heq, hrep, hmin⟩ := ih oldS newS hne hc
      refine ⟨c :: pre, suf, by simp [heq], ?_, ?_⟩
      · simp only [replaceFirst, if_neg hpre, hrep]
        simp
      · intro pre2 suf2 heq2
        cases pre2 with
        | nil =>
          exfalso
          apply hpre
          apply List.isPrefixOf_iff_prefix.mpr
          exact ⟨suf2, by rw [heq2]; simp⟩
        | cons c2 pre2t =>
          have h3 : c :: rest = c2 :: (pre2t ++ (oldS ++ suf2)) := by
            simpa [List.append_assoc] using heq2
          have h4 : rest = pre2t ++ oldS ++ suf2 :=
            (List.cons.inj h3).2.trans (List.append_assoc _ _ _).symm
          have h5 := hmin pre2t suf2 h4
          simp
          omega

/-- C8: first-occurrence semantics of replace_string_in_file. For every
file content and nonempty old string: when the old string is absent the
file is byte-identical and the result fails; when present, the content
splits as pre ++ old ++ suf at the first occurrence (no earlier split
exists) and execution rewrites exactly that contiguous region, yielding
pre ++ new ++ suf with success. -/
theorem replaceString_first_occurrence (content oldS newS : Str) (hne : oldS ≠ []) :
    (strContains content oldS = false → replaceStringExecute content oldS newS = (false, content)) ∧
      (strContains content oldS = true →
        ∃ pre suf, content = pre ++ oldS ++ suf ∧
          replaceStringExecute content oldS newS = (true, pre ++ newS ++ suf) ∧
          ∀ pre2 suf2, content = pre2 ++ oldS ++ suf2 → pre.length ≤ pre2.length) := by
  constructor
  · intro h
    simp [replaceStringExecute, h]
  · intro h
    obtain ⟨pre, suf, heq, hrep, hmin⟩ := replaceFirst_spec content oldS newS hne h
    exact ⟨pre, suf, heq, by simp [replaceStringExecute, h, hrep], hmin⟩

/-- Witness for C8 at a concrete file: content abcbc, old bc, new XY
(two occurrences; only the first is replaced). -/
theorem replaceString_first_occurrence_witness :
    (str "bc" ≠ []) ∧
      ((strContains (str "abcbc") (str "bc") = false →
          replaceStringExecute (str "abcbc") (str "bc") (str "XY") = (false, str "abcbc")) ∧
        (strContains (str "abcbc") (str "bc") = true →
          ∃ pre suf, str "abcbc" = pre ++ str "bc" ++ suf ∧
            replaceStringExecute (str "abcbc") (str "bc") (str "XY") = (true, pre ++ str "XY" ++ suf) ∧
            ∀ pre2 suf2, str "abcbc" = pre2 ++ str "bc" ++ suf2 → pre.length ≤ pre2.length)) :=
  ⟨by decide, replaceString_first_occurrence (str "abcbc") (str "bc") (str "XY") (by decide)⟩

example : replaceStringExecute (str "abcbc") (str "bc") (str "XY") = (true, str "aXYbc") := by decide
example : replaceStringExecute (str "abc") (str "zz") (str "XY") = (false, str "abc") := by decide
